import Mathlib

/-!
Shallow embedding of the `freelist` crate (src/freelist.rs, src/calloc.rs).

The slot pool `Dump` stores up to `usize::BITS = 64` raw pointers, coordinated
by two 64-bit bitmaps.  We model pointers as natural numbers, the bitmaps as
naturals below `2 ^ 64`, and the slot array as a list of length 64.  The
concurrent CAS loops of the source collapse, in this sequential model, to a
single successful update: every compare-exchange succeeds on first attempt, so
each operation is the atomic state transformation the source performs when it
runs without interference.
-/

deriving instance DecidableEq for Except

namespace Freelist

/-- Bit width of `usize` on the 64-bit targets the crate is written for. -/
def WORD : Nat := 64

/-- Fuel-indexed count of trailing zero bits, mirroring
`usize::trailing_zeros`: with fuel 64 it returns 64 on input 0. -/
def ctzAux : Nat → Nat → Nat
  | 0, _ => 0
  | fuel + 1, n => if n % 2 = 1 then 0 else ctzAux fuel (n / 2) + 1

/-- `usize::trailing_zeros` for values below `2 ^ 64`. -/
def trailing_zeros (n : Nat) : Nat := ctzAux WORD n

/-- Fuel-indexed count of trailing one bits, mirroring
`usize::trailing_ones`: with fuel 64 it returns 64 on input `usize::MAX`. -/
def ctoAux : Nat → Nat → Nat
  | 0, _ => 0
  | fuel + 1, n => if n % 2 = 1 then ctoAux fuel (n / 2) + 1 else 0

/-- `usize::trailing_ones` for values below `2 ^ 64`. -/
def trailing_ones (n : Nat) : Nat := ctoAux WORD n

/-- All 64 bits set: `usize::MAX`, the mask `!0`. -/
def MASK : Nat := 2 ^ WORD - 1

/-- `bit_fiddler::set!`: set bit `i` (source: `n | (1 << i)`). -/
def setBit (n i : Nat) : Nat := n ||| (1 <<< i)

/-- `bit_fiddler::unset!`: clear bit `i` (source: `n & !(1 << i)`, with `!`
the 64-bit complement). -/
def unsetBit (n i : Nat) : Nat := n &&& (MASK ^^^ (1 <<< i))

/-- The slot pool `Dump<T>` of src/freelist.rs: two bitmaps plus the slot
array `dump` of `usize::BITS` raw pointers. -/
structure Dump where
  reader_bitmap : Nat
  writer_bitmap : Nat
  dump : List Nat
deriving DecidableEq, Repr

/-- `Dump::new()`: both bitmaps zero, slots null. -/
def Dump.new : Dump :=
  { reader_bitmap := 0, writer_bitmap := 0, dump := List.replicate WORD 0 }

/-- `Dump::throw`: claim the lowest clear writer bit, store the pointer at
that slot, then set the same reader bit.  `Err raw` when the writer bitmap
has no clear bit at the observed load. -/
def Dump.throw (d : Dump) (raw : Nat) : Except Nat Dump :=
  let first_empty_spot := trailing_ones d.writer_bitmap
  if first_empty_spot = WORD then
    .error raw
  else
    .ok { reader_bitmap := setBit d.reader_bitmap first_empty_spot,
          writer_bitmap := setBit d.writer_bitmap first_empty_spot,
          dump := d.dump.set first_empty_spot raw }

/-- `Dump::recycle`: claim the lowest set reader bit, read that slot, then
clear the same writer bit.  `none` when the reader bitmap is zero at the
observed load. -/
def Dump.recycle (d : Dump) : Option (Nat × Dump) :=
  let first_set_spot := trailing_zeros d.reader_bitmap
  if first_set_spot = WORD then
    none
  else
    some (d.dump.getD first_set_spot 0,
          { reader_bitmap := unsetBit d.reader_bitmap first_set_spot,
            writer_bitmap := unsetBit d.writer_bitmap first_set_spot,
            dump := d.dump })

/-- The ascending slot indices visited by the callback loop of `Dump::clear`:
repeatedly take the lowest set bit of the captured bitmap and clear it. -/
def clearSpots : Nat → Nat → List Nat
  | 0, _ => []
  | fuel + 1, bm =>
    let first_set_spot := trailing_zeros bm
    if first_set_spot = WORD then []
    else first_set_spot :: clearSpots fuel (unsetBit bm first_set_spot)

/-- `Dump::clear`: if the reader bitmap is zero return immediately; otherwise
swap it to zero, invoke the callback on every slot whose bit was set in the
captured snapshot (returned here as the list of callback arguments, in loop
order), and finally clear those bits from the writer bitmap
(`writer & !snapshot`). -/
def Dump.clear (d : Dump) : List Nat × Dump :=
  if d.reader_bitmap = 0 then ([], d)
  else
    ((clearSpots WORD d.reader_bitmap).map (fun i => d.dump.getD i 0),
     { reader_bitmap := 0,
       writer_bitmap := d.writer_bitmap &&& (MASK ^^^ d.reader_bitmap),
       dump := d.dump })

/-- The error enum of src/freelist.rs. -/
inductive Error where
  | BucketFull
  | BucketNotAvailable
  | BucketEmpty
  | SizeNotPowerOf2
deriving DecidableEq, Repr

/-- Fuel-indexed population count, mirroring `usize::count_ones` on values
below `2 ^ 64`. -/
def countOnesAux : Nat → Nat → Nat
  | 0, _ => 0
  | fuel + 1, n => if n = 0 then 0 else n % 2 + countOnesAux fuel (n / 2)

/-- `usize::count_ones` for values below `2 ^ 64`. -/
def countOnes (n : Nat) : Nat := countOnesAux WORD n

/-- `usize::is_power_of_two`: exactly one set bit. -/
def is_power_of_two (n : Nat) : Bool := countOnes n == 1

/-- `FreeList<T, N>` of src/freelist.rs: an array of `N` slot pools, bucket
`p` holding pointers of size `2 ^ p`.  We carry the buckets as a list whose
length is `N`. -/
structure FreeList where
  buckets : List Dump
deriving DecidableEq, Repr

/-- `FreeList::<_, N>::new()`: `N` empty buckets. -/
def FreeList.new (N : Nat) : FreeList := ⟨List.replicate N Dump.new⟩

/-- `FreeList::recycle`: reject sizes that are not powers of two, route by
`trailing_zeros`, and pull from the bucket when it exists. -/
def FreeList.recycle (fl : FreeList) (size : Nat) : Except Error (Nat × FreeList) :=
  if ¬ is_power_of_two size then .error .SizeNotPowerOf2
  else
    let power := trailing_zeros size
    if power < fl.buckets.length then
      match (fl.buckets.getD power Dump.new).recycle with
      | none => .error .BucketEmpty
      | some (ptr, d') => .ok (ptr, ⟨fl.buckets.set power d'⟩)
    else .error .BucketNotAvailable

/-- `FreeList::throw`: reject sizes that are not powers of two, route by
`trailing_zeros`, and push into the bucket when it exists, turning the
pool-level failure into `BucketFull`. -/
def FreeList.throw (fl : FreeList) (ptr size : Nat) : Except Error FreeList :=
  if ¬ is_power_of_two size then .error .SizeNotPowerOf2
  else
    let power := trailing_zeros size
    if power < fl.buckets.length then
      match (fl.buckets.getD power Dump.new).throw ptr with
      | .error _ => .error .BucketFull
      | .ok d' => .ok ⟨fl.buckets.set power d'⟩
    else .error .BucketNotAvailable

/-- Fuel-indexed next power of two: smallest power of two that is at least
`n`, with `nextPowerOfTwo 0 = 1`, mirroring `usize::next_power_of_two` on
values below `2 ^ 63`. -/
def npotAux : Nat → Nat → Nat
  | 0, _ => 1
  | fuel + 1, n => if n ≤ 1 then 1 else 2 * npotAux fuel ((n + 1) / 2)

/-- `usize::next_power_of_two` for values below `2 ^ 63`. -/
def nextPowerOfTwo (n : Nat) : Nat := npotAux WORD n

/-- The single-thread state of src/calloc.rs: the static `FREELIST` with 11
buckets and the thread-local `MEMORY_MAP` from pointer to recorded size,
modelled as an association list (`mapInsert` replaces, as `HashMap::insert`
does). -/
structure AllocSt where
  freelist : FreeList
  memory_map : List (Nat × Nat)
deriving DecidableEq, Repr

/-- `HashMap::get` on the association-list model. -/
def mapLookup (m : List (Nat × Nat)) (p : Nat) : Option Nat :=
  (m.find? (fun e => e.1 == p)).map (fun e => e.2)

/-- `HashMap::remove` on the association-list model. -/
def mapRemove (m : List (Nat × Nat)) (p : Nat) : List (Nat × Nat) :=
  m.filter (fun e => ¬ e.1 = p)

/-- `HashMap::insert` on the association-list model. -/
def mapInsert (m : List (Nat × Nat)) (p sz : Nat) : List (Nat × Nat) :=
  (p, sz) :: mapRemove m p

/-- Initial state: `FreeList::<_, 11>::new()` and an empty map. -/
def initSt : AllocSt := ⟨FreeList.new 11, []⟩

/-- `calloc` of src/calloc.rs.  The host allocator is modelled by the address
`hostAddr` it would return on this call.  The result is `none` when the
`unreachable!()` branch (recycle returning `BucketFull`) would execute;
otherwise `some (returned pointer, arguments passed to the host allocator
when it was called, new state)`. -/
def calloc (nmemb size hostAddr : Nat) (st : AllocSt) :
    Option (Nat × Option (Nat × Nat) × AllocSt) :=
  let next_power_of_2 := nextPowerOfTwo (nmemb * size)
  match st.freelist.recycle next_power_of_2 with
  | .ok (ptr, fl') =>
      some (ptr, none,
        ⟨fl', mapInsert st.memory_map ptr (1 * next_power_of_2)⟩)
  | .error .BucketFull => none
  | .error .BucketEmpty =>
      some (hostAddr, some (1, next_power_of_2),
        ⟨st.freelist, mapInsert st.memory_map hostAddr (1 * next_power_of_2)⟩)
  | .error .SizeNotPowerOf2 | .error .BucketNotAvailable =>
      some (hostAddr, some (nmemb, size), st)

/-- `free` of src/calloc.rs.  The result is `none` when the `unreachable!()`
branch (throw returning `BucketEmpty`, `BucketNotAvailable` or
`SizeNotPowerOf2`) would execute; otherwise `some (new state, whether
`underlying_free` was called)`. -/
def free (p : Nat) (st : AllocSt) : Option (AllocSt × Bool) :=
  match mapLookup st.memory_map p with
  | some sz =>
    match st.freelist.throw p sz with
    | .ok fl' => some (⟨fl', st.memory_map⟩, false)
    | .error .BucketFull => some (⟨st.freelist, mapRemove st.memory_map p⟩, true)
    | .error .BucketEmpty | .error .BucketNotAvailable
    | .error .SizeNotPowerOf2 => none
  | none => some (st, true)

/-- A single-thread call to the wrapper layer: a `calloc` with its host
address, or a `free`. -/
inductive Op where
  | calloc (nmemb size hostAddr : Nat)
  | free (p : Nat)

/-- One wrapper call as a state step; `none` once an `unreachable!()` branch
would execute. -/
def step (st : AllocSt) : Op → Option AllocSt
  | .calloc n s a => (calloc n s a st).map (fun r => r.2.2)
  | .free p => (free p st).map (fun r => r.1)

/-- Run a sequence of wrapper calls; `none` once any call panics. -/
def execOps : AllocSt → List Op → Option AllocSt
  | st, [] => some st
  | st, op :: ops =>
    match step st op with
    | none => none
    | some st' => execOps st' ops

/-- Run `Dump::throw` once per pointer in the list; `none` if any call
returns `Err`. -/
def throwAll (d : Dump) : List Nat → Option Dump
  | [] => some d
  | p :: ps => match d.throw p with | .ok d' => throwAll d' ps | .error _ => none

/-- Run `Dump::recycle` `n` times, collecting the returned pointers in call
order (stopping early if a call returns `None`). -/
def recycleAll : Dump → Nat → List Nat × Dump
  | d, 0 => ([], d)
  | d, n + 1 =>
    match d.recycle with
    | none => ([], d)
    | some (p, d') =>
      let rest := recycleAll d' n
      (p :: rest.1, rest.2)

/-- The 64 distinct pointers 1..=64 used in the fill-and-empty scenario. -/
def ptrs64 : List Nat := (List.range WORD).map (· + 1)

/-- The pool after the 64 successful throws: both bitmaps saturated, slot `i`
holding pointer `i + 1`. -/
def dumpFull : Dump := { reader_bitmap := MASK, writer_bitmap := MASK, dump := ptrs64 }

/-- The pool after the 64 recycles: both bitmaps zero again (slot contents
are stale but unreachable). -/
def dumpDrained : Dump := { reader_bitmap := 0, writer_bitmap := 0, dump := ptrs64 }

set_option maxRecDepth 1000000 in
/-- C1: from the empty `Dump`, 64 successive `throw`s of the distinct
pointers 1..=64 all return `Ok`, the 65th `throw` returns `Err`, 64
successive `recycle`s return exactly the 64 inserted pointers each exactly
once, and the 65th `recycle` returns `None`. -/
theorem dump_fill_and_empty :
    throwAll Dump.new ptrs64 = some dumpFull ∧
    dumpFull.throw 65 = .error 65 ∧
    ptrs64.Nodup ∧
    recycleAll dumpFull WORD = (ptrs64, dumpDrained) ∧
    dumpDrained.recycle = none := by
  refine ⟨by decide, by decide, by decide, by decide, by decide⟩

theorem ctoAux_le : ∀ f n, ctoAux f n ≤ f
  | 0, _ => Nat.le_refl 0
  | f + 1, n => by
    unfold ctoAux
    split
    · exact Nat.succ_le_succ (ctoAux_le f (n / 2))
    · exact Nat.zero_le _

theorem ctzAux_le : ∀ f n, ctzAux f n ≤ f
  | 0, _ => Nat.le_refl 0
  | f + 1, n => by
    unfold ctzAux
    split
    · exact Nat.zero_le _
    · exact Nat.succ_le_succ (ctzAux_le f (n / 2))

theorem two_pow_succ_eq (f : Nat) : 2 ^ (f + 1) = 2 * 2 ^ f := by
  rw [Nat.pow_succ, Nat.mul_comm]

theorem ctoAux_eq_iff : ∀ f n, n < 2 ^ f → (ctoAux f n = f ↔ n = 2 ^ f - 1)
  | 0, n, h => by
    have hn : n = 0 := Nat.lt_one_iff.mp h
    subst hn
    simp [ctoAux]
  | f + 1, n, h => by
    have h2 : 2 ^ (f + 1) = 2 * 2 ^ f := two_pow_succ_eq f
    have hmod := Nat.div_add_mod n 2
    have hpos : 0 < 2 ^ f := Nat.pos_pow_of_pos f (by omega)
    unfold ctoAux
    by_cases hodd : n % 2 = 1
    · rw [if_pos hodd]
      have hdiv : n / 2 < 2 ^ f := by omega
      have IH := ctoAux_eq_iff f (n / 2) hdiv
      constructor
      · intro he
        have hf : ctoAux f (n / 2) = f := by omega
        have := IH.mp hf
        omega
      · intro he
        have hf : n / 2 = 2 ^ f - 1 := by omega
        have := IH.mpr hf
        omega
    · rw [if_neg hodd]
      constructor
      · intro he; omega
      · intro he; omega

theorem ctzAux_eq_iff : ∀ f n, n < 2 ^ f → (ctzAux f n = f ↔ n = 0)
  | 0, n, h => by
    have hn : n = 0 := Nat.lt_one_iff.mp h
    subst hn
    simp [ctzAux]
  | f + 1, n, h => by
    have h2 : 2 ^ (f + 1) = 2 * 2 ^ f := two_pow_succ_eq f
    have hmod := Nat.div_add_mod n 2
    unfold ctzAux
    by_cases hodd : n % 2 = 1
    · rw [if_pos hodd]
      constructor
      · intro he; omega
      · intro he; omega
    · rw [if_neg hodd]
      have hdiv : n / 2 < 2 ^ f := by omega
      have IH := ctzAux_eq_iff f (n / 2) hdiv
      constructor
      · intro he
        have hf : ctzAux f (n / 2) = f := by omega
        have := IH.mp hf
        omega
      · intro he
        have hf : n / 2 = 0 := by omega
        have := IH.mpr hf
        omega

theorem ctzAux_pow2 : ∀ f q, ctzAux f (2 ^ q) = min q f
  | 0, q => by simp [ctzAux]
  | f + 1, 0 => by simp [ctzAux]
  | f + 1, q + 1 => by
    have h2 : 2 ^ (q + 1) = 2 * 2 ^ q := two_pow_succ_eq q
    have hpos : 0 < 2 ^ q := Nat.pos_pow_of_pos q (by omega)
    unfold ctzAux
    have hmod : ¬ 2 ^ (q + 1) % 2 = 1 := by omega
    rw [if_neg hmod]
    have hdiv : 2 ^ (q + 1) / 2 = 2 ^ q := by omega
    rw [hdiv, ctzAux_pow2 f q]
    omega

theorem trailing_zeros_pow2 (q : Nat) (hq : q < WORD) : trailing_zeros (2 ^ q) = q := by
  unfold trailing_zeros
  rw [ctzAux_pow2]
  omega

theorem countOnesAux_zero : ∀ f, countOnesAux f 0 = 0
  | 0 => rfl
  | _ + 1 => by simp [countOnesAux]

theorem countOnesAux_eq_zero_iff : ∀ f n, n < 2 ^ f → (countOnesAux f n = 0 ↔ n = 0)
  | 0, n, h => by
    have hn : n = 0 := Nat.lt_one_iff.mp h
    subst hn
    simp [countOnesAux]
  | f + 1, n, h => by
    have h2 : 2 ^ (f + 1) = 2 * 2 ^ f := two_pow_succ_eq f
    have hmod := Nat.div_add_mod n 2
    unfold countOnesAux
    by_cases hzero : n = 0
    · rw [if_pos hzero]; omega
    · rw [if_neg hzero]
      have hdiv : n / 2 < 2 ^ f := by omega
      have IH := countOnesAux_eq_zero_iff f (n / 2) hdiv
      constructor
      · intro he
        have hf : countOnesAux f (n / 2) = 0 := by omega
        have := IH.mp hf
        omega
      · intro he; omega

theorem countOnesAux_pow2 : ∀ f p, p < f → countOnesAux f (2 ^ p) = 1
  | f + 1, 0, _ => by
    have h0 := countOnesAux_zero f
    simp [countOnesAux]
    omega
  | f + 1, p + 1, hp => by
    have h2 : 2 ^ (p + 1) = 2 * 2 ^ p := two_pow_succ_eq p
    have hpos : 0 < 2 ^ p := Nat.pos_pow_of_pos p (by omega)
    unfold countOnesAux
    have hne : ¬ 2 ^ (p + 1) = 0 := by omega
    rw [if_neg hne]
    have hdiv : 2 ^ (p + 1) / 2 = 2 ^ p := by omega
    rw [hdiv, countOnesAux_pow2 f p (by omega)]
    omega

theorem countOnesAux_eq_one : ∀ f n, n < 2 ^ f → countOnesAux f n = 1 → ∃ p, n = 2 ^ p
  | 0, n, h, hc => by
    have hn : n = 0 := Nat.lt_one_iff.mp h
    subst hn
    simp [countOnesAux] at hc
  | f + 1, n, h, hc => by
    have h2 : 2 ^ (f + 1) = 2 * 2 ^ f := two_pow_succ_eq f
    have hmod := Nat.div_add_mod n 2
    by_cases hzero : n = 0
    · subst hzero
      rw [countOnesAux_zero] at hc
      omega
    · unfold countOnesAux at hc
      rw [if_neg hzero] at hc
      have hdiv : n / 2 < 2 ^ f := by omega
      by_cases hodd : n % 2 = 1
      · have hf : countOnesAux f (n / 2) = 0 := by omega
        have := (countOnesAux_eq_zero_iff f (n / 2) hdiv).mp hf
        exact ⟨0, by omega⟩
      · have hf : countOnesAux f (n / 2) = 1 := by omega
        obtain ⟨p, hp⟩ := countOnesAux_eq_one f (n / 2) hdiv hf
        refine ⟨p + 1, ?_⟩
        have : 2 ^ (p + 1) = 2 * 2 ^ p := two_pow_succ_eq p
        omega

theorem is_power_of_two_pow (p : Nat) (hp : p < WORD) : is_power_of_two (2 ^ p) = true := by
  unfold is_power_of_two countOnes
  rw [countOnesAux_pow2 WORD p hp]
  rfl

theorem is_power_of_two_spec (n : Nat) (hn : n < 2 ^ WORD) :
    is_power_of_two n = true → ∃ p, n = 2 ^ p := by
  intro h
  unfold is_power_of_two countOnes at h
  have h1 : countOnesAux WORD n = 1 := by
    have := of_decide_eq_true (by simpa using h)
    exact this
  exact countOnesAux_eq_one WORD n hn h1

theorem npotAux_spec : ∀ f k n, n ≤ 2 ^ k → k < f → ∃ p, p ≤ k ∧ npotAux f n = 2 ^ p
  | f + 1, k, n, hn, hk => by
    unfold npotAux
    by_cases h1 : n ≤ 1
    · exact ⟨0, Nat.zero_le k, by rw [if_pos h1, Nat.pow_zero]⟩
    · rw [if_neg h1]
      cases k with
      | zero => omega
      | succ j =>
        have h2 : 2 ^ (j + 1) = 2 * 2 ^ j := two_pow_succ_eq j
        have hpos : 0 < 2 ^ j := Nat.pos_pow_of_pos j (by omega)
        have hdiv : (n + 1) / 2 ≤ 2 ^ j := by omega
        obtain ⟨p, hp, he⟩ := npotAux_spec f j ((n + 1) / 2) hdiv (by omega)
        refine ⟨p + 1, by omega, ?_⟩
        rw [he, two_pow_succ_eq p]

theorem getD_replicate {α : Type} (x d : α) : ∀ n i, i < n → (List.replicate n x).getD i d = x
  | n + 1, 0, _ => rfl
  | n + 1, i + 1, h => getD_replicate x d n i (by omega)

theorem getD_set_self {α : Type} (d x : α) :
    ∀ (l : List α) i, i < l.length → (l.set i x).getD i d = x
  | _ :: _, 0, _ => rfl
  | a :: l, i + 1, h => getD_set_self d x l i (by simpa using h)

theorem getD_set_ne {α : Type} (d x : α) :
    ∀ (l : List α) i j, i ≠ j → (l.set i x).getD j d = l.getD j d
  | [], _, _, _ => by simp [List.set]
  | a :: l, 0, 0, h => absurd rfl h
  | a :: l, 0, j + 1, _ => rfl
  | a :: l, i + 1, 0, _ => rfl
  | a :: l, i + 1, j + 1, h => getD_set_ne d x l i j (by omega)

theorem recycle_not_pow2 (fl : FreeList) (size : Nat)
    (h : is_power_of_two size = false) :
    fl.recycle size = .error .SizeNotPowerOf2 := by
  unfold FreeList.recycle
  rw [if_pos (by simp [h])]

theorem throw_not_pow2 (fl : FreeList) (ptr size : Nat)
    (h : is_power_of_two size = false) :
    fl.throw ptr size = .error .SizeNotPowerOf2 := by
  unfold FreeList.throw
  rw [if_pos (by simp [h])]

theorem recycle_unavailable (fl : FreeList) (size : Nat)
    (hpow : is_power_of_two size = true)
    (hge : ¬ trailing_zeros size < fl.buckets.length) :
    fl.recycle size = .error .BucketNotAvailable := by
  unfold FreeList.recycle
  rw [if_neg (by simp [hpow])]
  simp only []
  rw [if_neg hge]

theorem throw_unavailable (fl : FreeList) (ptr size : Nat)
    (hpow : is_power_of_two size = true)
    (hge : ¬ trailing_zeros size < fl.buckets.length) :
    fl.throw ptr size = .error .BucketNotAvailable := by
  unfold FreeList.throw
  rw [if_neg (by simp [hpow])]
  simp only []
  rw [if_neg hge]

theorem recycle_route (fl : FreeList) (size : Nat)
    (hpow : is_power_of_two size = true)
    (hlt : trailing_zeros size < fl.buckets.length) :
    fl.recycle size =
      match (fl.buckets.getD (trailing_zeros size) Dump.new).recycle with
      | none => .error .BucketEmpty
      | some (ptr, d') => .ok (ptr, ⟨fl.buckets.set (trailing_zeros size) d'⟩) := by
  unfold FreeList.recycle
  rw [if_neg (by simp [hpow])]
  simp only []
  rw [if_pos hlt]

theorem throw_route (fl : FreeList) (ptr size : Nat)
    (hpow : is_power_of_two size = true)
    (hlt : trailing_zeros size < fl.buckets.length) :
    fl.throw ptr size =
      match (fl.buckets.getD (trailing_zeros size) Dump.new).throw ptr with
      | .error _ => .error .BucketFull
      | .ok d' => .ok ⟨fl.buckets.set (trailing_zeros size) d'⟩ := by
  unfold FreeList.throw
  rw [if_neg (by simp [hpow])]
  simp only []
  rw [if_pos hlt]

/-- C4: `Dump::throw` fails exactly when the writer bitmap observed at its
load has all 64 bits set, and `Dump::recycle` fails exactly when the reader
bitmap observed at its load is zero. -/
theorem dump_exhaustion_iff (d : Dump) (raw : Nat)
    (hw : d.writer_bitmap < 2 ^ WORD) (hr : d.reader_bitmap < 2 ^ WORD) :
    (d.throw raw = .error raw ↔ d.writer_bitmap = 2 ^ WORD - 1) ∧
    (d.recycle = none ↔ d.reader_bitmap = 0) := by
  constructor
  · have h1 : d.throw raw = .error raw ↔ trailing_ones d.writer_bitmap = WORD := by
      unfold Dump.throw
      by_cases h : trailing_ones d.writer_bitmap = WORD
      · simp [h]
      · simp [h]
    rw [h1]
    exact ctoAux_eq_iff WORD d.writer_bitmap hw
  · have h1 : d.recycle = none ↔ trailing_zeros d.reader_bitmap = WORD := by
      unfold Dump.recycle
      by_cases h : trailing_zeros d.reader_bitmap = WORD
      · simp [h]
      · simp [h]
    rw [h1]
    exact ctzAux_eq_iff WORD d.reader_bitmap hr

/-- Witness for C4 at the empty pool. -/
theorem dump_exhaustion_iff_witness :
    Dump.new.writer_bitmap < 2 ^ WORD ∧ Dump.new.reader_bitmap < 2 ^ WORD ∧
    ((Dump.new.throw 3 = .error 3 ↔ Dump.new.writer_bitmap = 2 ^ WORD - 1) ∧
     (Dump.new.recycle = none ↔ Dump.new.reader_bitmap = 0)) :=
  ⟨by decide, by decide, dump_exhaustion_iff Dump.new 3 (by decide) (by decide)⟩

/-- C5: for a size that is not a power of two (zero or more than one set
bit), both `FreeList::recycle` and `FreeList::throw` reject with
`SizeNotPowerOf2`, on every freelist state, returning no new state. -/
theorem freelist_rejects_non_pow2 (fl : FreeList) (ptr s : Nat)
    (hs : s < 2 ^ WORD) (h : ∀ p, s ≠ 2 ^ p) :
    fl.recycle s = .error .SizeNotPowerOf2 ∧
    fl.throw ptr s = .error .SizeNotPowerOf2 := by
  have hb : is_power_of_two s = false := by
    cases hbv : is_power_of_two s
    · rfl
    · obtain ⟨p, hp⟩ := is_power_of_two_spec s hs hbv
      exact absurd hp (h p)
  exact ⟨recycle_not_pow2 fl s hb, throw_not_pow2 fl ptr s hb⟩

/-- Witness for C5 at size 3 (two set bits) on the 11-bucket freelist. -/
theorem freelist_rejects_non_pow2_witness :
    (3 : Nat) < 2 ^ WORD ∧
    ((FreeList.new 11).recycle 3 = .error .SizeNotPowerOf2 ∧
     (FreeList.new 11).throw 7 3 = .error .SizeNotPowerOf2) :=
  ⟨by decide, freelist_rejects_non_pow2 (FreeList.new 11) 7 3 (by decide)
    (fun p => by
      match p with
      | 0 => decide
      | 1 => decide
      | p + 2 =>
        have h4 : 2 ^ 2 ≤ 2 ^ (p + 2) := Nat.pow_le_pow_right (by omega) (by omega)
        have : (2 : Nat) ^ 2 = 4 := by norm_num
        omega)⟩

/-- C3: on an otherwise-empty `FreeList` with `N` buckets, a `throw` of
pointer `a` at size `2 ^ p` (`p < N`) followed by `recycle (2 ^ p)` returns
`a`, while `recycle (2 ^ q)` for `q ≠ p` returns `BucketEmpty` when `q < N`
and `BucketNotAvailable` when `q ≥ N`; routing is by `trailing_zeros` of the
size after the power-of-two check. -/
theorem freelist_size_routing (N p q a : Nat) (hN : N ≤ WORD) (hp : p < N)
    (hq : q < WORD) (hqp : q ≠ p) :
    ∃ fl1, (FreeList.new N).throw a (2 ^ p) = .ok fl1 ∧
      (∃ fl2, fl1.recycle (2 ^ p) = .ok (a, fl2)) ∧
      (q < N → fl1.recycle (2 ^ q) = .error .BucketEmpty) ∧
      (N ≤ q → fl1.recycle (2 ^ q) = .error .BucketNotAvailable) := by
  have hp64 : p < WORD := Nat.lt_of_lt_of_le hp hN
  have hpowp : is_power_of_two (2 ^ p) = true := is_power_of_two_pow p hp64
  have htzp : trailing_zeros (2 ^ p) = p := trailing_zeros_pow2 p hp64
  have hpowq : is_power_of_two (2 ^ q) = true := is_power_of_two_pow q hq
  have htzq : trailing_zeros (2 ^ q) = q := trailing_zeros_pow2 q hq
  have hlen : (FreeList.new N).buckets.length = N := by
    simp [FreeList.new]
  have hthrow0 : Dump.new.throw a =
      .ok ⟨1, 1, (List.replicate WORD 0).set 0 a⟩ := rfl
  set d1 : Dump := ⟨1, 1, (List.replicate WORD 0).set 0 a⟩ with hd1
  set fl1 : FreeList := ⟨(List.replicate N Dump.new).set p d1⟩ with hfl1
  have hlen1 : fl1.buckets.length = N := by
    simp [hfl1]
  have hbucket : (FreeList.new N).buckets.getD p Dump.new = Dump.new := by
    unfold FreeList.new
    exact getD_replicate Dump.new Dump.new N p hp
  refine ⟨fl1, ?_, ?_, ?_, ?_⟩
  · rw [throw_route (FreeList.new N) a (2 ^ p) hpowp (by rw [htzp, hlen]; exact hp)]
    rw [htzp, hbucket, hthrow0]
    rfl
  · refine ⟨⟨fl1.buckets.set p ⟨0, 0, (List.replicate WORD 0).set 0 a⟩⟩, ?_⟩
    rw [recycle_route fl1 (2 ^ p) hpowp (by rw [htzp, hlen1]; exact hp)]
    rw [htzp]
    have hb1 : fl1.buckets.getD p Dump.new = d1 := by
      rw [hfl1]
      exact getD_set_self Dump.new d1 (List.replicate N Dump.new) p (by simpa using hp)
    rw [hb1]
    have hrec : d1.recycle = some (a, ⟨0, 0, (List.replicate WORD 0).set 0 a⟩) := by
      rw [hd1]
      unfold Dump.recycle
      have htz1 : trailing_zeros 1 = 0 := by decide
      rw [htz1]
      rw [if_neg (by decide)]
      have : ((List.replicate WORD 0).set 0 a).getD 0 0 = a :=
        getD_set_self 0 a (List.replicate WORD 0) 0 (by simp [WORD])
      rw [this]
      have hu : unsetBit 1 0 = 0 := by decide
      rw [hu]
    rw [hrec]
  · intro hqN
    rw [recycle_route fl1 (2 ^ q) hpowq (by rw [htzq, hlen1]; exact hqN)]
    rw [htzq]
    have hb : fl1.buckets.getD q Dump.new = Dump.new := by
      rw [hfl1]
      rw [getD_set_ne Dump.new d1 (List.replicate N Dump.new) p q (fun h => hqp h.symm)]
      exact getD_replicate Dump.new Dump.new N q hqN
    rw [hb]
    have : Dump.new.recycle = none := by decide
    rw [this]
  · intro hNq
    exact recycle_unavailable fl1 (2 ^ q) hpowq (by rw [htzq, hlen1]; omega)

/-- Witness for C3 with `N = 4`, `p = 3`, `q = 2`, `a = 42`. -/
theorem freelist_size_routing_witness :
    4 ≤ WORD ∧ 3 < 4 ∧ 2 < WORD ∧ (2 : Nat) ≠ 3 ∧
    (∃ fl1, (FreeList.new 4).throw 42 (2 ^ 3) = .ok fl1 ∧
      (∃ fl2, fl1.recycle (2 ^ 3) = .ok (42, fl2)) ∧
      (2 < 4 → fl1.recycle (2 ^ 2) = .error .BucketEmpty) ∧
      (4 ≤ 2 → fl1.recycle (2 ^ 2) = .error .BucketNotAvailable)) :=
  ⟨by decide, by decide, by decide, by decide,
    freelist_size_routing 4 3 2 42 (by decide) (by decide) (by decide) (by decide)⟩

theorem one_shiftLeft (i : Nat) : 1 <<< i = 2 ^ i := by
  rw [Nat.shiftLeft_eq, Nat.one_mul]

theorem two_pow_lt_word (i : Nat) (h : i < WORD) : 2 ^ i < 2 ^ WORD := by
  have h1 : 2 ^ i ≤ 2 ^ (WORD - 1) := Nat.pow_le_pow_right (by omega) (by omega)
  have h2 : (2 : Nat) ^ (WORD - 1) < 2 ^ WORD := by decide
  omega

theorem testBit_setBit (n i j : Nat) :
    (setBit n i).testBit j = (n.testBit j || decide (i = j)) := by
  unfold setBit
  rw [one_shiftLeft]
  simp [Nat.testBit_two_pow]

theorem setBit_lt (n i : Nat) (hn : n < 2 ^ WORD) (hi : i < WORD) :
    setBit n i < 2 ^ WORD := by
  unfold setBit
  rw [one_shiftLeft]
  exact Nat.or_lt_two_pow hn (two_pow_lt_word i hi)

theorem testBit_unsetBit (n i j : Nat) (hn : n < 2 ^ WORD) :
    (unsetBit n i).testBit j = (n.testBit j && ! decide (i = j)) := by
  unfold unsetBit MASK
  rw [one_shiftLeft]
  by_cases hj : j < WORD
  · simp only [Nat.testBit_and, Nat.testBit_xor, Nat.testBit_two_pow_sub_one,
      Nat.testBit_two_pow]
    rw [decide_eq_true hj]
    cases hd : decide (i = j) <;> cases hb : n.testBit j <;> rfl
  · have hnj : n.testBit j = false :=
      Nat.testBit_lt_two_pow (Nat.lt_of_lt_of_le hn (Nat.pow_le_pow_right (by omega) (by omega)))
    simp only [Nat.testBit_and, hnj, Bool.false_and]

theorem unsetBit_le (n i : Nat) : unsetBit n i ≤ n := Nat.and_le_left

theorem and_mask_xor_self (w : Nat) (hw : w < 2 ^ WORD) :
    w &&& (MASK ^^^ w) = 0 := by
  apply Nat.eq_of_testBit_eq
  intro i
  simp only [Nat.testBit_and, Nat.testBit_xor, Nat.zero_testBit]
  unfold MASK
  rw [Nat.testBit_two_pow_sub_one]
  by_cases hi : i < WORD
  · rw [decide_eq_true hi]
    cases hb : w.testBit i <;> rfl
  · have hwi : w.testBit i = false :=
      Nat.testBit_lt_two_pow (Nat.lt_of_lt_of_le hw (Nat.pow_le_pow_right (by omega) (by omega)))
    rw [hwi]
    rfl

theorem ctzAux_testBit : ∀ f n, ctzAux f n ≠ f → n.testBit (ctzAux f n) = true
  | 0, _, h => absurd rfl h
  | f + 1, n, h => by
    unfold ctzAux at h ⊢
    by_cases hodd : n % 2 = 1
    · rw [if_pos hodd] at h ⊢
      simp [Nat.testBit_zero, hodd]
    · rw [if_neg hodd] at h ⊢
      have h' : ctzAux f (n / 2) ≠ f := by omega
      have := ctzAux_testBit f (n / 2) h'
      rw [Nat.testBit_add_one]
      exact this

theorem ctzAux_min_bits : ∀ f n j, j < ctzAux f n → n.testBit j = false
  | 0, _, _, h => by simp [ctzAux] at h
  | f + 1, n, j, h => by
    unfold ctzAux at h
    by_cases hodd : n % 2 = 1
    · rw [if_pos hodd] at h
      omega
    · rw [if_neg hodd] at h
      cases j with
      | zero =>
        simp [Nat.testBit_zero]
        omega
      | succ k =>
        rw [Nat.testBit_add_one]
        exact ctzAux_min_bits f (n / 2) k (by omega)

theorem ctzAux_ge : ∀ f n k, (∀ j, j < k → n.testBit j = false) → min k f ≤ ctzAux f n
  | 0, _, _, _ => by omega
  | f + 1, n, k, h => by
    cases k with
    | zero => omega
    | succ m =>
      have h0 : n.testBit 0 = false := h 0 (by omega)
      have hodd : ¬ n % 2 = 1 := by
        simp [Nat.testBit_zero] at h0
        omega
      unfold ctzAux
      rw [if_neg hodd]
      have hrec := ctzAux_ge f (n / 2) m
        (fun j hj => by rw [← Nat.testBit_add_one]; exact h (j + 1) (by omega))
      omega

theorem clearSpots_spec : ∀ fuel bm, bm < 2 ^ WORD → WORD ≤ fuel + trailing_zeros bm →
    (∀ i, i ∈ clearSpots fuel bm ↔ bm.testBit i = true) ∧ (clearSpots fuel bm).Nodup
  | 0, bm, hbm, hfuel => by
    have hle : trailing_zeros bm ≤ WORD := ctzAux_le WORD bm
    have hz : trailing_zeros bm = WORD := by omega
    have hbm0 : bm = 0 := (ctzAux_eq_iff WORD bm hbm).mp hz
    subst hbm0
    refine ⟨fun i => ?_, List.nodup_nil⟩
    simp [clearSpots]
  | fuel + 1, bm, hbm, hfuel => by
    by_cases hz : trailing_zeros bm = WORD
    · have hbm0 : bm = 0 := (ctzAux_eq_iff WORD bm hbm).mp hz
      subst hbm0
      refine ⟨fun i => ?_, ?_⟩
      · unfold clearSpots
        rw [if_pos hz]
        simp
      · unfold clearSpots
        rw [if_pos hz]
        exact List.nodup_nil
    · have hs64 : trailing_zeros bm < WORD := by
        have := ctzAux_le WORD bm
        unfold trailing_zeros at *
        omega
      have hbit : bm.testBit (trailing_zeros bm) = true := ctzAux_testBit WORD bm hz
      have hlow : ∀ j, j < trailing_zeros bm → bm.testBit j = false :=
        fun j hj => ctzAux_min_bits WORD bm j hj
      have hbm' : ∀ j, (unsetBit bm (trailing_zeros bm)).testBit j =
          (bm.testBit j && ! decide (trailing_zeros bm = j)) :=
        fun j => testBit_unsetBit bm (trailing_zeros bm) j hbm
      have hbm'lt : unsetBit bm (trailing_zeros bm) < 2 ^ WORD :=
        Nat.lt_of_le_of_lt (unsetBit_le bm (trailing_zeros bm)) hbm
      have hlow' : ∀ j, j < trailing_zeros bm + 1 →
          (unsetBit bm (trailing_zeros bm)).testBit j = false := by
        intro j hj
        rw [hbm' j]
        by_cases hje : trailing_zeros bm = j
        · simp [hje]
        · have : j < trailing_zeros bm := by omega
          simp [hlow j this]
      have htz' : trailing_zeros bm + 1 ≤ trailing_zeros (unsetBit bm (trailing_zeros bm)) := by
        have := ctzAux_ge WORD (unsetBit bm (trailing_zeros bm)) (trailing_zeros bm + 1) hlow'
        unfold trailing_zeros at this ⊢
        have hde : trailing_zeros bm = ctzAux WORD bm := rfl
        omega
      have hfuel' : WORD ≤ fuel + trailing_zeros (unsetBit bm (trailing_zeros bm)) := by
        omega
      obtain ⟨IH1, IH2⟩ := clearSpots_spec fuel (unsetBit bm (trailing_zeros bm)) hbm'lt hfuel'
      constructor
      · intro i
        unfold clearSpots
        rw [if_neg hz]
        simp only [List.mem_cons]
        rw [IH1 i, hbm' i]
        by_cases hie : trailing_zeros bm = i
        · subst hie
          simp [hbit]
        · simp [hie, Ne.symm hie]
      · unfold clearSpots
        rw [if_neg hz]
        refine List.Nodup.cons ?_ IH2
        intro hmem
        have := (IH1 (trailing_zeros bm)).mp hmem
        rw [hbm' (trailing_zeros bm)] at this
        simp at this

/-- Sequential reachability of a `Dump` state through complete `throw`,
`recycle` and `clear` operations (failed `throw`/`recycle` calls leave the
state unchanged). -/
inductive Reachable : Dump → Prop where
  | init : Reachable Dump.new
  | throw_ok (d d' : Dump) (raw : Nat) :
      Reachable d → d.throw raw = .ok d' → Reachable d'
  | recycle_some (d d' : Dump) (p : Nat) :
      Reachable d → d.recycle = some (p, d') → Reachable d'
  | clear_step (d : Dump) : Reachable d → Reachable (d.clear).2

/-- Sequential state invariant of the pool: with no operation in flight the
two bitmaps agree, fit in a machine word, and the slot array has length 64. -/
def DumpInv (d : Dump) : Prop :=
  d.reader_bitmap = d.writer_bitmap ∧ d.writer_bitmap < 2 ^ WORD ∧
  d.dump.length = WORD

theorem throw_ok_inv (d d' : Dump) (raw : Nat) (hinv : DumpInv d)
    (h : d.throw raw = .ok d') : DumpInv d' := by
  obtain ⟨he, hw, hl⟩ := hinv
  unfold Dump.throw at h
  by_cases hfull : trailing_ones d.writer_bitmap = WORD
  · rw [if_pos hfull] at h
    exact absurd h (by simp)
  · rw [if_neg hfull] at h
    have hspot : trailing_ones d.writer_bitmap < WORD := by
      have := ctoAux_le WORD d.writer_bitmap
      unfold trailing_ones at *
      omega
    injection h with h
    subst h
    refine ⟨by rw [he], setBit_lt d.writer_bitmap _ hw hspot, by simpa using hl⟩

theorem recycle_some_inv (d d' : Dump) (p : Nat) (hinv : DumpInv d)
    (h : d.recycle = some (p, d')) : DumpInv d' := by
  obtain ⟨he, hw, hl⟩ := hinv
  unfold Dump.recycle at h
  by_cases hempty : trailing_zeros d.reader_bitmap = WORD
  · rw [if_pos hempty] at h
    exact absurd h (by simp)
  · rw [if_neg hempty] at h
    injection h with h
    injection h with h1 h2
    subst h2
    refine ⟨by rw [he], ?_, hl⟩
    exact Nat.lt_of_le_of_lt (unsetBit_le d.writer_bitmap _) hw

theorem clear_inv (d : Dump) (hinv : DumpInv d) : DumpInv (d.clear).2 := by
  obtain ⟨he, hw, hl⟩ := hinv
  unfold Dump.clear
  by_cases hz : d.reader_bitmap = 0
  · rw [if_pos hz]
    exact ⟨he, hw, hl⟩
  · rw [if_neg hz]
    refine ⟨?_, ?_, hl⟩
    · rw [he, and_mask_xor_self d.writer_bitmap hw]
    · rw [he, and_mask_xor_self d.writer_bitmap hw]
      exact Nat.pos_pow_of_pos WORD (by omega)

theorem reachable_inv (d : Dump) (h : Reachable d) : DumpInv d := by
  induction h with
  | init => exact ⟨rfl, by decide, by simp [Dump.new]⟩
  | throw_ok d d' raw _ hstep ih => exact throw_ok_inv d d' raw ih hstep
  | recycle_some d d' p _ hstep ih => exact recycle_some_inv d d' p ih hstep
  | clear_step d _ ih => exact clear_inv d ih

/-- C6: on every reachable state the reader bitmap is bitwise contained in
the writer bitmap (the sequential invariant makes them equal, so containment
holds at every observation point between complete operations). -/
theorem reader_subset_writer (d : Dump) (i : Nat) (h : Reachable d)
    (hbit : d.reader_bitmap.testBit i = true) :
    d.writer_bitmap.testBit i = true := by
  obtain ⟨he, _, _⟩ := reachable_inv d h
  rw [← he]
  exact hbit

/-- Witness for C6 on the state reached by one `throw` from the empty pool. -/
theorem reader_subset_writer_witness :
    ({ reader_bitmap := 1, writer_bitmap := 1,
       dump := (List.replicate WORD 0).set 0 5 } : Dump).writer_bitmap.testBit 0 = true :=
  reader_subset_writer _ 0
    (Reachable.throw_ok Dump.new _ 5 Reachable.init rfl) (by decide)

theorem recycle_none_of_reader_zero (d : Dump) (hz : d.reader_bitmap = 0) :
    d.recycle = none := by
  unfold Dump.recycle
  rw [hz]
  rfl

theorem throw_ok_of_not_full (d : Dump) (raw : Nat)
    (hne : trailing_ones d.writer_bitmap ≠ WORD) : ∃ d', d.throw raw = .ok d' :=
  ⟨{ reader_bitmap := setBit d.reader_bitmap (trailing_ones d.writer_bitmap),
     writer_bitmap := setBit d.writer_bitmap (trailing_ones d.writer_bitmap),
     dump := d.dump.set (trailing_ones d.writer_bitmap) raw },
   by unfold Dump.throw; rw [if_neg hne]⟩

/-- C2: on every reachable state, `Dump::clear` invokes its callback exactly
once per slot whose reader bit was set in the snapshot captured when the
reader bitmap was swapped to zero (passing that slot value), and afterwards
the pool is empty: a subsequent `recycle` returns `None` and a subsequent
`throw` succeeds. -/
theorem clear_drains (d : Dump) (raw : Nat) (h : Reachable d) :
    (∃ spots : List Nat, (d.clear).1 = spots.map (fun i => d.dump.getD i 0) ∧
      spots.Nodup ∧ (∀ i, i ∈ spots ↔ d.reader_bitmap.testBit i = true)) ∧
    (d.clear).2.recycle = none ∧
    (∃ d', (d.clear).2.throw raw = .ok d') := by
  obtain ⟨he, hw, hl⟩ := reachable_inv d h
  by_cases hz : d.reader_bitmap = 0
  · have hc : d.clear = ([], d) := by
      unfold Dump.clear
      rw [if_pos hz]
    rw [hc]
    refine ⟨⟨[], rfl, List.nodup_nil, fun i => ?_⟩, ?_, ?_⟩
    · constructor
      · intro hmem
        exact absurd hmem (List.not_mem_nil i)
      · intro hbit
        rw [hz] at hbit
        simp at hbit
    · exact recycle_none_of_reader_zero d hz
    · apply throw_ok_of_not_full
      rw [← he, hz]
      decide
  · have hreader : d.reader_bitmap < 2 ^ WORD := by rw [he]; exact hw
    have hc : d.clear =
        ((clearSpots WORD d.reader_bitmap).map (fun i => d.dump.getD i 0),
         { reader_bitmap := 0,
           writer_bitmap := d.writer_bitmap &&& (MASK ^^^ d.reader_bitmap),
           dump := d.dump }) := by
      unfold Dump.clear
      rw [if_neg hz]
    rw [hc]
    obtain ⟨hmem, hnodup⟩ := clearSpots_spec WORD d.reader_bitmap hreader (by omega)
    refine ⟨⟨clearSpots WORD d.reader_bitmap, rfl, hnodup, hmem⟩, ?_, ?_⟩
    · exact recycle_none_of_reader_zero _ rfl
    · apply throw_ok_of_not_full
      show trailing_ones (d.writer_bitmap &&& (MASK ^^^ d.reader_bitmap)) ≠ WORD
      rw [← he, and_mask_xor_self d.reader_bitmap hreader]
      decide

/-- Witness for C2 at the empty pool. -/
theorem clear_drains_witness :
    (∃ spots : List Nat, (Dump.new.clear).1 = spots.map (fun i => Dump.new.dump.getD i 0) ∧
      spots.Nodup ∧ (∀ i, i ∈ spots ↔ Dump.new.reader_bitmap.testBit i = true)) ∧
    (Dump.new.clear).2.recycle = none ∧
    (∃ d', (Dump.new.clear).2.throw 7 = .ok d') :=
  clear_drains Dump.new 7 Reachable.init

theorem freelist_new_len (N : Nat) : (FreeList.new N).buckets.length = N := by
  simp [FreeList.new]

theorem dump_new_throw (a : Nat) :
    Dump.new.throw a = .ok ⟨1, 1, (List.replicate WORD 0).set 0 a⟩ := rfl

theorem dump_one_recycle (a : Nat) :
    (⟨1, 1, (List.replicate WORD 0).set 0 a⟩ : Dump).recycle =
      some (a, ⟨0, 0, (List.replicate WORD 0).set 0 a⟩) := by
  unfold Dump.recycle
  have htz1 : trailing_zeros 1 = 0 := by decide
  rw [htz1, if_neg (by decide)]
  rw [getD_set_self 0 a (List.replicate WORD 0) 0 (by simp [WORD])]
  have hu : unsetBit 1 0 = 0 := by decide
  rw [hu]

theorem mapInsert_single (a sz sz' : Nat) :
    mapInsert [(a, sz)] a sz' = [(a, sz')] := by
  simp [mapInsert, mapRemove]

theorem mapLookup_single (a sz : Nat) : mapLookup [(a, sz)] a = some sz := by
  simp [mapLookup]

/-- Shared round trip of the wrapper on the initial state, for two requests
both rounding to the recyclable size `2 ^ p`: the first `calloc` misses the
freelist and calls the host with shape `(1, 2 ^ p)`, `free` deposits the
address in bucket `p` keeping the map entry, and the second `calloc`
recycles the same address without a host call. -/
theorem wrapper_round_trip (nmemb size nmemb' size' a a' p : Nat) (hp : p < 11)
    (hP : nextPowerOfTwo (nmemb * size) = 2 ^ p)
    (hP' : nextPowerOfTwo (nmemb' * size') = 2 ^ p) :
    calloc nmemb size a initSt =
      some (a, some (1, 2 ^ p), ⟨FreeList.new 11, [(a, 2 ^ p)]⟩) ∧
    free a ⟨FreeList.new 11, [(a, 2 ^ p)]⟩ =
      some (⟨⟨(List.replicate 11 Dump.new).set p
               ⟨1, 1, (List.replicate WORD 0).set 0 a⟩⟩, [(a, 2 ^ p)]⟩, false) ∧
    calloc nmemb' size' a'
        ⟨⟨(List.replicate 11 Dump.new).set p
           ⟨1, 1, (List.replicate WORD 0).set 0 a⟩⟩, [(a, 2 ^ p)]⟩ =
      some (a, none,
        ⟨⟨((List.replicate 11 Dump.new).set p
             ⟨1, 1, (List.replicate WORD 0).set 0 a⟩).set p
             ⟨0, 0, (List.replicate WORD 0).set 0 a⟩⟩, [(a, 2 ^ p)]⟩) := by
  have hp64 : p < WORD := by unfold WORD; omega
  have hpow : is_power_of_two (2 ^ p) = true := is_power_of_two_pow p hp64
  have htz : trailing_zeros (2 ^ p) = p := trailing_zeros_pow2 p hp64
  have hlen : (FreeList.new 11).buckets.length = 11 := freelist_new_len 11
  have hbucket : (FreeList.new 11).buckets.getD p Dump.new = Dump.new := by
    unfold FreeList.new
    exact getD_replicate Dump.new Dump.new 11 p hp
  have hrecA : initSt.freelist.recycle (2 ^ p) = .error .BucketEmpty := by
    show (FreeList.new 11).recycle (2 ^ p) = .error .BucketEmpty
    rw [recycle_route _ _ hpow (by rw [htz, hlen]; exact hp)]
    rw [htz, hbucket]
    rfl
  have hthrow : (FreeList.new 11).throw a (2 ^ p) =
      .ok ⟨(List.replicate 11 Dump.new).set p ⟨1, 1, (List.replicate WORD 0).set 0 a⟩⟩ := by
    rw [throw_route _ _ _ hpow (by rw [htz, hlen]; exact hp)]
    rw [htz, hbucket, dump_new_throw]
    rfl
  refine ⟨?_, ?_, ?_⟩
  · simp only [calloc]
    rw [hP, hrecA]
    simp [initSt, mapInsert_single, mapInsert, mapRemove]
  · simp [free, mapLookup_single, hthrow]
  · have hlen2 : (⟨(List.replicate 11 Dump.new).set p
        ⟨1, 1, (List.replicate WORD 0).set 0 a⟩⟩ : FreeList).buckets.length = 11 := by
      simp
    have hb2 : (⟨(List.replicate 11 Dump.new).set p
        ⟨1, 1, (List.replicate WORD 0).set 0 a⟩⟩ : FreeList).buckets.getD p Dump.new =
        ⟨1, 1, (List.replicate WORD 0).set 0 a⟩ := by
      exact getD_set_self Dump.new _ (List.replicate 11 Dump.new) p (by simpa using hp)
    have hrecC : (⟨(List.replicate 11 Dump.new).set p
        ⟨1, 1, (List.replicate WORD 0).set 0 a⟩⟩ : FreeList).recycle (2 ^ p) =
        .ok (a, ⟨((List.replicate 11 Dump.new).set p
             ⟨1, 1, (List.replicate WORD 0).set 0 a⟩).set p
             ⟨0, 0, (List.replicate WORD 0).set 0 a⟩⟩) := by
      rw [recycle_route _ _ hpow (by rw [htz, hlen2]; exact hp)]
      rw [htz, hb2, dump_one_recycle]
    simp only [calloc]
    rw [hP']
    simp only [hrecC]
    rw [Nat.one_mul, mapInsert_single]

/-- C7: with empty freelist and map, a `calloc` of a shape rounding to a
recyclable size returns the host address `a` and records it; `free a`
deposits `a` into the freelist without calling the host free and keeps the
map entry; a subsequent `calloc` of the same shape returns the same `a`
with no host call. -/
theorem calloc_free_calloc_round_trip (nmemb size a a' : Nat)
    (h : nmemb * size ≤ 2 ^ 10) :
    ∃ st1 st2 st3,
      calloc nmemb size a initSt =
        some (a, some (1, nextPowerOfTwo (nmemb * size)), st1) ∧
      free a st1 = some (st2, false) ∧
      st2.memory_map = st1.memory_map ∧
      calloc nmemb size a' st2 = some (a, none, st3) := by
  obtain ⟨p, hple, hP⟩ := npotAux_spec WORD 10 (nmemb * size) h (by unfold WORD; omega)
  have hP2 : nextPowerOfTwo (nmemb * size) = 2 ^ p := hP
  obtain ⟨h1, h2, h3⟩ :=
    wrapper_round_trip nmemb size nmemb size a a' p (by omega) hP2 hP2
  rw [hP2]
  exact ⟨_, _, _, h1, h2, rfl, h3⟩

/-- Witness for C7 with `nmemb = 1`, `size = 1000` (rounds to 1024, bucket
10), host addresses 5000 and 6000. -/
theorem calloc_free_calloc_round_trip_witness :
    (1 * 1000 ≤ 2 ^ 10) ∧
    (∃ st1 st2 st3,
      calloc 1 1000 5000 initSt =
        some (5000, some (1, nextPowerOfTwo (1 * 1000)), st1) ∧
      free 5000 st1 = some (st2, false) ∧
      st2.memory_map = st1.memory_map ∧
      calloc 1 1000 6000 st2 = some (5000, none, st3)) :=
  ⟨by decide, calloc_free_calloc_round_trip 1 1000 5000 6000 (by decide)⟩

/-- C10: a request with `nmemb * size = 0` rounds to
`next_power_of_two 0 = 1`, is treated as recyclable via bucket 0 (never
rejected as `SizeNotPowerOf2`), reaches the host as shape `(1, 1)` rather
than the original arguments, is recorded in the map with size 1, and once
freed it is handed out again by a later zero-sized `calloc` with no host
call. -/
theorem calloc_zero_size (nmemb size nmemb' size' a a' : Nat)
    (h : nmemb * size = 0) (h' : nmemb' * size' = 0) :
    ∃ st1 st2 st3,
      calloc nmemb size a initSt = some (a, some (1, 1), st1) ∧
      st1.memory_map = [(a, 1)] ∧
      free a st1 = some (st2, false) ∧
      calloc nmemb' size' a' st2 = some (a, none, st3) ∧
      st3.memory_map = [(a, 1)] := by
  have hP : nextPowerOfTwo (nmemb * size) = 2 ^ 0 := by rw [h]; rfl
  have hP' : nextPowerOfTwo (nmemb' * size') = 2 ^ 0 := by rw [h']; rfl
  obtain ⟨h1, h2, h3⟩ :=
    wrapper_round_trip nmemb size nmemb' size' a a' 0 (by omega) hP hP'
  rw [show (2 : Nat) ^ 0 = 1 from rfl] at h1 h2 h3
  exact ⟨_, _, _, h1, rfl, h2, h3, rfl⟩

/-- Witness for C10 with requests `(0, 5)` and `(7, 0)` and host addresses
900 and 901. -/
theorem calloc_zero_size_witness :
    (0 * 5 = 0) ∧ (7 * 0 = 0) ∧
    (∃ st1 st2 st3,
      calloc 0 5 900 initSt = some (900, some (1, 1), st1) ∧
      st1.memory_map = [(900, 1)] ∧
      free 900 st1 = some (st2, false) ∧
      calloc 7 0 901 st2 = some (900, none, st3) ∧
      st3.memory_map = [(900, 1)]) :=
  ⟨rfl, rfl, calloc_zero_size 0 5 7 0 900 901 rfl rfl⟩

/-- Sizes that the wrapper may record: a power of two routed to one of the
11 buckets of the static freelist. -/
def SizeOk (sz : Nat) : Prop :=
  is_power_of_two sz = true ∧ trailing_zeros sz < 11

/-- Invariant of the wrapper state: the static freelist keeps its 11
buckets, and every recorded size is recyclable. -/
def StInv (st : AllocSt) : Prop :=
  st.freelist.buckets.length = 11 ∧ ∀ e ∈ st.memory_map, SizeOk e.2

theorem recycle_ne_bucket_full (fl : FreeList) (size : Nat) :
    fl.recycle size ≠ .error .BucketFull := by
  cases hpv : is_power_of_two size with
  | false =>
    rw [recycle_not_pow2 fl size hpv]
    simp
  | true =>
    by_cases hlt : trailing_zeros size < fl.buckets.length
    · rw [recycle_route fl size hpv hlt]
      cases hr : (fl.buckets.getD (trailing_zeros size) Dump.new).recycle with
      | none => simp
      | some pd =>
        cases pd with
        | mk q d' => simp
    · rw [recycle_unavailable fl size hpv hlt]
      simp

theorem recycle_ok_facts (fl : FreeList) (size ptr : Nat) (fl' : FreeList)
    (h : fl.recycle size = .ok (ptr, fl')) :
    fl'.buckets.length = fl.buckets.length ∧ is_power_of_two size = true ∧
    trailing_zeros size < fl.buckets.length := by
  cases hpv : is_power_of_two size with
  | false =>
    rw [recycle_not_pow2 fl size hpv] at h
    exact absurd h (by simp)
  | true =>
    by_cases hlt : trailing_zeros size < fl.buckets.length
    · rw [recycle_route fl size hpv hlt] at h
      cases hr : (fl.buckets.getD (trailing_zeros size) Dump.new).recycle with
      | none =>
        rw [hr] at h
        exact absurd h (by simp)
      | some pd =>
        cases pd with
        | mk q d' =>
          rw [hr] at h
          simp only [Except.ok.injEq, Prod.mk.injEq] at h
          obtain ⟨-, hfl⟩ := h
          subst hfl
          exact ⟨by simp, rfl, hlt⟩
    · rw [recycle_unavailable fl size hpv hlt] at h
      exact absurd h (by simp)

theorem recycle_empty_facts (fl : FreeList) (size : Nat)
    (h : fl.recycle size = .error .BucketEmpty) :
    is_power_of_two size = true ∧ trailing_zeros size < fl.buckets.length := by
  cases hpv : is_power_of_two size with
  | false =>
    rw [recycle_not_pow2 fl size hpv] at h
    exact absurd h (by simp)
  | true =>
    by_cases hlt : trailing_zeros size < fl.buckets.length
    · exact ⟨rfl, hlt⟩
    · rw [recycle_unavailable fl size hpv hlt] at h
      exact absurd h (by simp)

theorem throw_cases (fl : FreeList) (ptr size : Nat)
    (hpv : is_power_of_two size = true)
    (hlt : trailing_zeros size < fl.buckets.length) :
    (∃ fl', fl.throw ptr size = .ok fl' ∧
      fl'.buckets.length = fl.buckets.length) ∨
    fl.throw ptr size = .error .BucketFull := by
  rw [throw_route fl ptr size hpv hlt]
  cases hr : (fl.buckets.getD (trailing_zeros size) Dump.new).throw ptr with
  | error e => right; rfl
  | ok d' =>
    left
    exact ⟨⟨fl.buckets.set (trailing_zeros size) d'⟩, rfl, by simp⟩

theorem mem_mapInsert (m : List (Nat × Nat)) (p sz : Nat) (e : Nat × Nat)
    (h : e ∈ mapInsert m p sz) : e = (p, sz) ∨ e ∈ m := by
  unfold mapInsert mapRemove at h
  rcases List.mem_cons.mp h with h | h
  · exact Or.inl h
  · exact Or.inr (List.mem_filter.mp h).1

theorem mapLookup_mem (m : List (Nat × Nat)) (p sz : Nat)
    (h : mapLookup m p = some sz) : ∃ e ∈ m, e.2 = sz := by
  unfold mapLookup at h
  cases hf : m.find? (fun e => e.1 == p) with
  | none =>
    rw [hf] at h
    exact absurd h (by simp)
  | some e =>
    rw [hf] at h
    have hmem : e ∈ m := List.mem_of_find?_eq_some hf
    have he2 : e.2 = sz := by
      simp at h
      exact h
    exact ⟨e, hmem, he2⟩

theorem calloc_inv (n sz a : Nat) (st : AllocSt) (hinv : StInv st) :
    ∃ r, calloc n sz a st = some r ∧ StInv r.2.2 := by
  obtain ⟨hlen, hmap⟩ := hinv
  cases hr : st.freelist.recycle (nextPowerOfTwo (n * sz)) with
  | ok pr =>
    cases pr with
    | mk ptr fl' =>
      obtain ⟨hlen', hpow, hlt⟩ := recycle_ok_facts st.freelist _ ptr fl' hr
      refine ⟨(ptr, none,
        ⟨fl', mapInsert st.memory_map ptr (1 * nextPowerOfTwo (n * sz))⟩), ?_, ?_, ?_⟩
      · simp only [calloc, hr]
      · show fl'.buckets.length = 11
        omega
      · intro e he
        rcases mem_mapInsert _ _ _ e he with he | he
        · subst he
          refine ⟨?_, ?_⟩
          · show is_power_of_two (1 * nextPowerOfTwo (n * sz)) = true
            rw [Nat.one_mul]
            exact hpow
          · show trailing_zeros (1 * nextPowerOfTwo (n * sz)) < 11
            rw [Nat.one_mul]
            omega
        · exact hmap e he
  | error err =>
    cases err with
    | BucketFull => exact absurd hr (recycle_ne_bucket_full st.freelist _)
    | BucketEmpty =>
      obtain ⟨hpow, hlt⟩ := recycle_empty_facts st.freelist _ hr
      refine ⟨(a, some (1, nextPowerOfTwo (n * sz)),
        ⟨st.freelist, mapInsert st.memory_map a (1 * nextPowerOfTwo (n * sz))⟩), ?_, hlen, ?_⟩
      · simp only [calloc, hr]
      · intro e he
        rcases mem_mapInsert _ _ _ e he with he | he
        · subst he
          refine ⟨?_, ?_⟩
          · show is_power_of_two (1 * nextPowerOfTwo (n * sz)) = true
            rw [Nat.one_mul]
            exact hpow
          · show trailing_zeros (1 * nextPowerOfTwo (n * sz)) < 11
            rw [Nat.one_mul]
            omega
        · exact hmap e he
    | SizeNotPowerOf2 =>
      refine ⟨(a, some (n, sz), st), ?_, hlen, hmap⟩
      simp only [calloc, hr]
    | BucketNotAvailable =>
      refine ⟨(a, some (n, sz), st), ?_, hlen, hmap⟩
      simp only [calloc, hr]

theorem free_inv (p : Nat) (st : AllocSt) (hinv : StInv st) :
    ∃ r, free p st = some r ∧ StInv r.1 := by
  obtain ⟨hlen, hmap⟩ := hinv
  cases hl : mapLookup st.memory_map p with
  | none =>
    refine ⟨(st, true), ?_, hlen, hmap⟩
    simp only [free, hl]
  | some sz =>
    obtain ⟨e, hem, he2⟩ := mapLookup_mem st.memory_map p sz hl
    have hsz : SizeOk sz := he2 ▸ hmap e hem
    obtain ⟨hpow, htz⟩ := hsz
    rcases throw_cases st.freelist p sz hpow (by omega) with ⟨fl', hok, hlen'⟩ | hfull
    · refine ⟨(⟨fl', st.memory_map⟩, false), ?_, ?_, hmap⟩
      · simp only [free, hl, hok]
      · show fl'.buckets.length = 11
        omega
    · refine ⟨(⟨st.freelist, mapRemove st.memory_map p⟩, true), ?_, hlen, ?_⟩
      · simp only [free, hl, hfull]
      · intro e' he'
        exact hmap e' (List.mem_filter.mp he').1

theorem execOps_inv : ∀ (ops : List Op) (st : AllocSt), StInv st →
    ∃ st', execOps st ops = some st' ∧ StInv st'
  | [], st, hinv => ⟨st, rfl, hinv⟩
  | op :: ops, st, hinv => by
    cases op with
    | calloc n sz a =>
      obtain ⟨r, hr, hrinv⟩ := calloc_inv n sz a st hinv
      obtain ⟨st', hst', hinv'⟩ := execOps_inv ops r.2.2 hrinv
      refine ⟨st', ?_, hinv'⟩
      simp only [execOps, step, hr, Option.map]
      exact hst'
    | free p =>
      obtain ⟨r, hr, hrinv⟩ := free_inv p st hinv
      obtain ⟨st', hst', hinv'⟩ := execOps_inv ops r.1 hrinv
      refine ⟨st', ?_, hinv'⟩
      simp only [execOps, step, hr, Option.map]
      exact hst'

/-- C9: every size the wrapper records in the thread-local map is a power of
two with `trailing_zeros` below 11 (a bucketed size of the static
11-bucket freelist), so no sequence of single-thread `calloc`/`free` calls
ever reaches an `unreachable!()` branch: execution always produces a state,
never a panic. -/
theorem calloc_free_no_panic (ops : List Op) :
    ∃ st', execOps initSt ops = some st' ∧
      ∀ e ∈ st'.memory_map,
        is_power_of_two e.2 = true ∧ trailing_zeros e.2 < 11 := by
  have hinv : StInv initSt :=
    ⟨freelist_new_len 11, fun e he => absurd he (List.not_mem_nil e)⟩
  obtain ⟨st', h1, h2, h3⟩ := execOps_inv ops initSt hinv
  exact ⟨st', h1, fun e he => h3 e he⟩

end Freelist
